import Mathlib

/-!
Verification of the guile-rs mode-coordination layer (src/lib.rs, src/dynwind.rs).

The layer coordinates entry into an embedded Guile VM:

* `init` (lib.rs): the top-level entry point.  If the thread-local
  `GUILE_MODE` flag is set it calls the closure directly (reentrant fast
  path); otherwise it optionally takes `INITIALIZATION_LOCK` (only when the
  thread-local `INITIALIZED` flag is still false), builds a callback-transfer
  cell and calls `scm_with_guile` with `with_guile_callback`, which stores
  `INITIALIZED := true`, `GUILE_MODE := true`, takes the closure out of the
  cell, runs it and stores its output; after `scm_with_guile` returns, `init`
  stores `GUILE_MODE := false` and returns the cell's output slot.
* `GuileVM::block` (lib.rs): calls `scm_without_guile` with
  `without_guile_callback`, which stores `GUILE_MODE := false` and runs the
  operation; after return `block` stores `GUILE_MODE := true` and unwraps the
  output slot.
* `GuileVM::dynwind_scope` / `Dynwind::protect` (dynwind.rs): `Dynwind::new`
  calls `scm_dynwind_begin(0)` (push a wind frame), `protect` calls
  `scm_dynwind_unwind_handler(cast_drop_in_place::<T>, ptr, 0)` (flags 0, not
  `SCM_F_WIND_EXPLICITLY`), and `Dynwind`'s `Drop` calls `scm_dynwind_end`.
  A Guile non-local exit unwinds past frames, running the handlers of each
  frame most-recently-registered first, and is caught at the enclosing
  `scm_with_guile` boundary, which then returns without the output slot
  having been written.

The embedding is a small language `Prog` of the closures a caller can pass
through this API, interpreted over the thread state (the two thread-local
flags plus Guile's wind stack) into an outcome and a trace of the primitive
state-changing events the source performs.  The contracts of the external
collaborators (`scm_with_guile` catching non-local exits at its boundary,
`scm_without_guile` running its trampoline once, the wind stack discipline,
the mutex) are those of the spec's Raw Call Surface section.
-/

namespace GuileRs

/-- Source location of a `GUILE_MODE` store.  `withGuileEnter` is the
`GUILE_MODE.store(true)` in `with_guile_callback`; `afterWithGuile` is the
`GUILE_MODE.store(false)` in `init` right after `scm_with_guile` returns;
`blockEnter` is the `GUILE_MODE.store(false)` in `without_guile_callback`;
`afterBlock` is the `GUILE_MODE.store(true)` in `GuileVM::block` right after
`scm_without_guile` returns. -/
inductive Site
  | withGuileEnter
  | afterWithGuile
  | blockEnter
  | afterBlock
deriving DecidableEq

/-- A registration made by `Dynwind::protect` on Guile's wind stack: the
resource identity and the `SCM_F_WIND_EXPLICITLY` flag of
`scm_dynwind_unwind_handler` (the source always passes `0`, i.e. `false`). -/
structure Reg where
  rid : Nat
  explicitly : Bool
deriving DecidableEq

/-- A primitive state-changing event of the layer, in source terms:
lock acquisition/release of `INITIALIZATION_LOCK`, the `INITIALIZED.store(true)`
of `with_guile_callback`, a `GUILE_MODE` store (tagged with its source site),
`scm_dynwind_begin` (push a wind frame), `scm_dynwind_unwind_handler`
(register a handler on the innermost frame), the popping of a wind frame
(`normal := true` for `scm_dynwind_end` from `Dynwind`'s `Drop`,
`normal := false` for the pop Guile's unwinding performs), and a run of a
registered destructor (`cast_drop_in_place`). -/
inductive Event
  | lockAcquire
  | lockRelease
  | setInit
  | setMode (b : Bool) (site : Site)
  | dynBegin
  | reg (rid : Nat) (explicitly : Bool)
  | dynEnd (normal : Bool)
  | dropRun (rid : Nat)
deriving DecidableEq

/-- Per-thread state: the thread-local `INITIALIZED` and `GUILE_MODE` atomics
of lib.rs and the thread's Guile wind stack (innermost frame first; each frame
lists its registrations most recent first). -/
structure TState where
  initialized : Bool
  guileMode : Bool
  winds : List (List Reg)
deriving DecidableEq

/-- Registration of a handler on the innermost wind frame, as
`scm_dynwind_unwind_handler` does (no frame: nothing to register on, a state
unreachable through the API since `protect` needs a live `Dynwind`). -/
def pushReg (ws : List (List Reg)) (rid : Nat) (expl : Bool) : List (List Reg) :=
  match ws with
  | [] => []
  | f :: rest => (⟨rid, expl⟩ :: f) :: rest

/-- Effect of one event on the thread state. -/
def applyEvent (s : TState) : Event → TState
  | .lockAcquire => s
  | .lockRelease => s
  | .setInit => { s with initialized := true }
  | .setMode b _ => { s with guileMode := b }
  | .dynBegin => { s with winds := [] :: s.winds }
  | .reg rid expl => { s with winds := pushReg s.winds rid expl }
  | .dynEnd _ => { s with winds := s.winds.tail }
  | .dropRun _ => s

/-- Effect of a trace of events, oldest first. -/
def applyEvents (s : TState) (tr : List Event) : TState :=
  tr.foldl applyEvent s

/-- Outcome of a computation inside the VM: a normal return or a non-local
exit in flight. -/
inductive Outcome
  | ret (v : Nat)
  | thrown
deriving DecidableEq

/-- The closures a caller can pass through the layer's API, with their
continuations.  `pure v` returns `v`; `throwE` triggers a Guile non-local
exit; `initE body k` calls `init` with `body` and continues with the
`Option` result; `blockE op k` calls `GuileVM::block`; `dynwindScope body k`
calls `GuileVM::dynwind_scope`; `protect rid k` calls `Dynwind::protect` for
the resource `rid` (registering `cast_drop_in_place` with flags `0`). -/
inductive Prog
  | pure (v : Nat)
  | throwE
  | initE (body : Prog) (k : Option Nat → Prog)
  | blockE (op : Prog) (k : Nat → Prog)
  | dynwindScope (body : Prog) (k : Nat → Prog)
  | protect (rid : Nat) (k : Prog)

/-- Events `init` performs before the user closure runs on the non-reentrant
path: the optional lock acquisition (`INITIALIZED` still false at call time)
followed by the two stores of `with_guile_callback`. -/
def enterEvents (s : TState) : List Event :=
  (if s.initialized then ([] : List Event) else [Event.lockAcquire])
    ++ [Event.setInit, Event.setMode true .withGuileEnter]

/-- Events `init` performs after `scm_with_guile` returns on the
non-reentrant path: the `GUILE_MODE.store(false)` and the optional lock
release (the guard drops at the end of the block). -/
def exitEvents (s : TState) : List Event :=
  Event.setMode false .afterWithGuile ::
    (if s.initialized then ([] : List Event) else [Event.lockRelease])

/-- Interpreter: outcome and event trace of running a closure from a given
thread state.  Each case mirrors the corresponding source function; a
`thrown` outcome is a non-local exit propagating outward, caught only by the
`scm_with_guile` boundary of a non-reentrant `initE`. -/
def interp : Prog → TState → Outcome × List Event
  | .pure v, _ => (.ret v, [])
  | .throwE, _ => (.thrown, [])
  | .protect rid k, s =>
      let e := Event.reg rid false
      let r := interp k (applyEvent s e)
      (r.1, e :: r.2)
  | .dynwindScope body k, s =>
      let s0 := applyEvent s .dynBegin
      let r := interp body s0
      let s1 := applyEvents s0 r.2
      let frame := s1.winds.headD []
      match r.1 with
      | .ret v =>
          let drops := (frame.filter (·.explicitly)).map fun g => Event.dropRun g.rid
          let tr1 := Event.dynBegin :: (r.2 ++ drops ++ [Event.dynEnd true])
          let r2 := interp (k v) (applyEvents s tr1)
          (r2.1, tr1 ++ r2.2)
      | .thrown =>
          (.thrown,
            Event.dynBegin ::
              (r.2 ++ frame.map (fun g => Event.dropRun g.rid) ++ [Event.dynEnd false]))
  | .blockE op k, s =>
      let e0 := Event.setMode false .blockEnter
      let r := interp op (applyEvent s e0)
      match r.1 with
      | .ret v =>
          let tr1 := e0 :: (r.2 ++ [Event.setMode true .afterBlock])
          let r2 := interp (k v) (applyEvents s tr1)
          (r2.1, tr1 ++ r2.2)
      | .thrown => (.thrown, e0 :: r.2)
  | .initE body k, s =>
      if s.guileMode then
        let r := interp body s
        match r.1 with
        | .ret v =>
            let r2 := interp (k (some v)) (applyEvents s r.2)
            (r2.1, r.2 ++ r2.2)
        | .thrown => (.thrown, r.2)
      else
        let pre := enterEvents s
        let r := interp body (applyEvents s pre)
        let out : Option Nat := match r.1 with | .ret v => some v | .thrown => none
        let tr1 := pre ++ r.2 ++ exitEvents s
        let r2 := interp (k out) (applyEvents s tr1)
        (r2.1, tr1 ++ r2.2)

/-- Result of a host-level call to `init`: `normal r` when `init` returns the
`Option` value `r`, `abort` when a non-local exit propagates past the call
(the reentrant path does not catch, so the call never returns). -/
inductive HostResult
  | normal (r : Option Nat)
  | abort
deriving DecidableEq

/-- Host-level view of an outcome at a reentrant `init` boundary. -/
def hostOf : Outcome → HostResult
  | .ret v => .normal (some v)
  | .thrown => .abort

/-- The top-level entry point `init` of lib.rs, seen from the host caller:
reentrant fast path when `GUILE_MODE` is set, otherwise the optional lock,
`scm_with_guile` around `with_guile_callback`, the `GUILE_MODE.store(false)`
and the read of the output slot. -/
def runInit (body : Prog) (s : TState) : HostResult × List Event :=
  if s.guileMode then
    let r := interp body s
    (hostOf r.1, r.2)
  else
    let pre := enterEvents s
    let r := interp body (applyEvents s pre)
    let out : Option Nat := match r.1 with | .ret v => some v | .thrown => none
    (.normal out, pre ++ r.2 ++ exitEvents s)

/-- Result of a host-level call to `GuileVM::block`: the unwrapped output on
normal return, `abort` when the operation's outcome is a non-local exit (then
control never comes back through `scm_without_guile`). -/
inductive BlockResult
  | value (v : Nat)
  | abort
deriving DecidableEq

/-- The method `GuileVM::block` of lib.rs, seen from the host caller:
`scm_without_guile` around `without_guile_callback` (which stores
`GUILE_MODE := false` and runs the operation), then `GUILE_MODE.store(true)`
and `data.output.unwrap()`. -/
def runBlock (op : Prog) (s : TState) : BlockResult × List Event :=
  let e0 := Event.setMode false .blockEnter
  let r := interp op (applyEvent s e0)
  match r.1 with
  | .ret v => (.value v, e0 :: (r.2 ++ [Event.setMode true .afterBlock]))
  | .thrown => (.abort, e0 :: r.2)

/-- The callback-transfer cell `WithGuileCallbackData` /
`WithoutGuileCallbackData` of lib.rs: the user closure (consumed by
`Option::take`) and the output slot. -/
structure Cell (F O : Type) where
  closure : Option F
  output : Option O
deriving DecidableEq

/-- Cell manipulation of `with_guile_callback`:
`data.output = data.closure.take().map(|closure| closure(&mut GuileVM {}))`.
`run f = none` models the closure triggering an uncaught non-local exit, in
which case the assignment to the output slot never executes (the closure has
already been taken).  The second component records whether the stored closure
was invoked. -/
def withGuileCallbackCell {F O : Type} (run : F → Option O) (c : Cell F O) :
    Cell F O × Bool :=
  match c.closure with
  | none => ({ closure := none, output := none }, false)
  | some f =>
      match run f with
      | some v => ({ closure := none, output := some v }, true)
      | none => ({ closure := none, output := c.output }, true)

/-- Cell manipulation of `without_guile_callback`:
`data.output = data.operation.take().map(|operation| operation())`, the same
take-then-map discipline as `with_guile_callback`. -/
def withoutGuileCallbackCell {F O : Type} (run : F → Option O) (c : Cell F O) :
    Cell F O × Bool :=
  match c.closure with
  | none => ({ closure := none, output := none }, false)
  | some f =>
      match run f with
      | some v => ({ closure := none, output := some v }, true)
      | none => ({ closure := none, output := c.output }, true)

/-- The cell `init` builds for the non-reentrant path, after
`with_guile_callback` has run over it: the closure slot held `body`, and the
trampoline invokes it from the entered state. -/
def initCell (body : Prog) (s : TState) : Cell Prog Nat :=
  (withGuileCallbackCell
      (fun b =>
        match (interp b (applyEvents s (enterEvents s))).1 with
        | .ret v => some v
        | .thrown => none)
      { closure := some body, output := none }).1

/-- Whether an event is an acquisition or release of `INITIALIZATION_LOCK`. -/
def isLockEvent : Event → Bool
  | .lockAcquire => true
  | .lockRelease => true
  | _ => false

/-- Whether a trace touches `INITIALIZATION_LOCK` at all. -/
def lockFree (tr : List Event) : Bool :=
  tr.all fun e => !isLockEvent e

/-- Whether every registration on the wind stack was made with flags `0`
(no `SCM_F_WIND_EXPLICITLY`), as `Dynwind::protect` always does. -/
def noExpl (ws : List (List Reg)) : Bool :=
  ws.all fun f => f.all fun g => !g.explicitly

/-- Whether an event is a registration with `SCM_F_WIND_EXPLICITLY` unset,
or not a registration at all. -/
def regSafe : Event → Bool
  | .reg _ expl => !expl
  | _ => true

/-- The spec's per-thread invariant: `active` (`GUILE_MODE`) implies
`bootstrapped` (`INITIALIZED`). -/
def Inv (s : TState) : Prop :=
  s.guileMode = true → s.initialized = true

instance (s : TState) : Decidable (Inv s) :=
  inferInstanceAs (Decidable (s.guileMode = true → s.initialized = true))

/-- The invariant `Inv` holds at the start state and after every prefix of a
trace. -/
def InvAll (s : TState) (tr : List Event) : Prop :=
  ∀ n, Inv (applyEvents s (tr.take n))

/-- Number of wind-frame pushes (`scm_dynwind_begin`) in a trace. -/
def beginCount (tr : List Event) : Nat :=
  tr.count .dynBegin

/-- Number of wind-frame pops in a trace, whether by `scm_dynwind_end` or by
Guile's own unwinding. -/
def endCount (tr : List Event) : Nat :=
  tr.count (.dynEnd true) + tr.count (.dynEnd false)

/-- Mode discipline the Rust borrow checker enforces on closures passed
through the API: `m` is the `GUILE_MODE` value in whose context the program
runs.  A `blockE` needs a live `&mut GuileVM`, so it can only occur in
guile mode, and its operation runs outside guile mode; the body of an
`initE` always runs in guile mode; a continuation runs in the context of its
caller. -/
inductive ModeOK : Prog → Bool → Prop
  | pure {v m} : ModeOK (.pure v) m
  | throwE {m} : ModeOK .throwE m
  | protect {rid k m} : ModeOK k m → ModeOK (.protect rid k) m
  | dynwindScope {body k m} :
      ModeOK body m → (∀ v, ModeOK (k v) m) → ModeOK (.dynwindScope body k) m
  | blockE {op k} :
      ModeOK op false → (∀ v, ModeOK (k v) true) → ModeOK (.blockE op k) true
  | initE {body k m} :
      ModeOK body true → (∀ r, ModeOK (k r) m) → ModeOK (.initE body k) m

/-- Encoding of `Option Nat` into the values of `Prog`, used to express the
nested scenario `init(|api| api.block(|| init(|_| ...)))` of the source's
`in_and_out` test. -/
def encodeOpt : Option Nat → Nat
  | none => 0
  | some v => v + 1

@[simp] theorem applyEvent_lockAcquire (s : TState) : applyEvent s .lockAcquire = s := rfl

@[simp] theorem applyEvent_lockRelease (s : TState) : applyEvent s .lockRelease = s := rfl

@[simp] theorem applyEvent_setInit (s : TState) :
    applyEvent s .setInit = { s with initialized := true } := rfl

@[simp] theorem applyEvent_setMode (s : TState) (b : Bool) (site : Site) :
    applyEvent s (.setMode b site) = { s with guileMode := b } := rfl

@[simp] theorem applyEvent_dynBegin (s : TState) :
    applyEvent s .dynBegin = { s with winds := [] :: s.winds } := rfl

@[simp] theorem applyEvent_reg (s : TState) (rid : Nat) (expl : Bool) :
    applyEvent s (.reg rid expl) = { s with winds := pushReg s.winds rid expl } := rfl

@[simp] theorem applyEvent_dynEnd (s : TState) (b : Bool) :
    applyEvent s (.dynEnd b) = { s with winds := s.winds.tail } := rfl

@[simp] theorem applyEvent_dropRun (s : TState) (rid : Nat) :
    applyEvent s (.dropRun rid) = s := rfl

theorem applyEvents_nil (s : TState) : applyEvents s [] = s := rfl

theorem applyEvents_cons (s : TState) (e : Event) (tr : List Event) :
    applyEvents s (e :: tr) = applyEvents (applyEvent s e) tr := rfl

theorem applyEvents_append (s : TState) (t1 t2 : List Event) :
    applyEvents s (t1 ++ t2) = applyEvents (applyEvents s t1) t2 :=
  List.foldl_append ..

theorem applyEvent_initialized (s : TState) (e : Event) (h : s.initialized = true) :
    (applyEvent s e).initialized = true := by
  cases e <;> simp [applyEvent, h]

theorem applyEvents_initialized (s : TState) (tr : List Event)
    (h : s.initialized = true) : (applyEvents s tr).initialized = true := by
  induction tr generalizing s with
  | nil => exact h
  | cons e tr ih => exact ih _ (applyEvent_initialized s e h)

theorem interp_pure (v : Nat) (s : TState) : interp (.pure v) s = (.ret v, []) := rfl

theorem interp_throwE (s : TState) : interp .throwE s = (.thrown, []) := rfl

theorem interp_protect (rid : Nat) (k : Prog) (s : TState) :
    interp (.protect rid k) s =
      ((interp k (applyEvent s (.reg rid false))).1,
        Event.reg rid false :: (interp k (applyEvent s (.reg rid false))).2) := rfl

theorem interp_dynwind_ret (body : Prog) (k : Nat → Prog) (s : TState)
    (v : Nat) (tr : List Event)
    (h : interp body (applyEvent s .dynBegin) = (.ret v, tr)) :
    interp (.dynwindScope body k) s =
      ((interp (k v)
          (applyEvents s
            (Event.dynBegin ::
              (tr ++
                (((applyEvents (applyEvent s .dynBegin) tr).winds.headD []).filter
                    (·.explicitly)).map (fun g => Event.dropRun g.rid) ++
                [Event.dynEnd true])))).1,
        (Event.dynBegin ::
            (tr ++
              (((applyEvents (applyEvent s .dynBegin) tr).winds.headD []).filter
                  (·.explicitly)).map (fun g => Event.dropRun g.rid) ++
              [Event.dynEnd true])) ++
          (interp (k v)
            (applyEvents s
              (Event.dynBegin ::
                (tr ++
                  (((applyEvents (applyEvent s .dynBegin) tr).winds.headD []).filter
                      (·.explicitly)).map (fun g => Event.dropRun g.rid) ++
                  [Event.dynEnd true])))).2) := by
  simp only [interp, h]

theorem interp_dynwind_thrown (body : Prog) (k : Nat → Prog) (s : TState)
    (tr : List Event)
    (h : interp body (applyEvent s .dynBegin) = (.thrown, tr)) :
    interp (.dynwindScope body k) s =
      (.thrown,
        Event.dynBegin ::
          (tr ++
            ((applyEvents (applyEvent s .dynBegin) tr).winds.headD []).map
              (fun g => Event.dropRun g.rid) ++
            [Event.dynEnd false])) := by
  simp only [interp, h]

theorem interp_blockE_ret (op : Prog) (k : Nat → Prog) (s : TState)
    (v : Nat) (tr : List Event)
    (h : interp op (applyEvent s (.setMode false .blockEnter)) = (.ret v, tr)) :
    interp (.blockE op k) s =
      ((interp (k v)
          (applyEvents s
            (Event.setMode false .blockEnter ::
              (tr ++ [Event.setMode true .afterBlock])))).1,
        (Event.setMode false .blockEnter ::
            (tr ++ [Event.setMode true .afterBlock])) ++
          (interp (k v)
            (applyEvents s
              (Event.setMode false .blockEnter ::
                (tr ++ [Event.setMode true .afterBlock])))).2) := by
  simp only [interp, h]

theorem interp_blockE_thrown (op : Prog) (k : Nat → Prog) (s : TState)
    (tr : List Event)
    (h : interp op (applyEvent s (.setMode false .blockEnter)) = (.thrown, tr)) :
    interp (.blockE op k) s = (.thrown, Event.setMode false .blockEnter :: tr) := by
  simp only [interp, h]

theorem interp_initE_fast_ret (body : Prog) (k : Option Nat → Prog) (s : TState)
    (hm : s.guileMode = true) (v : Nat) (tr : List Event)
    (h : interp body s = (.ret v, tr)) :
    interp (.initE body k) s =
      ((interp (k (some v)) (applyEvents s tr)).1,
        tr ++ (interp (k (some v)) (applyEvents s tr)).2) := by
  simp only [interp, hm, if_true, h]

theorem interp_initE_fast_thrown (body : Prog) (k : Option Nat → Prog) (s : TState)
    (hm : s.guileMode = true) (tr : List Event)
    (h : interp body s = (.thrown, tr)) :
    interp (.initE body k) s = (.thrown, tr) := by
  simp only [interp, hm, if_true, h]

theorem interp_initE_enter (body : Prog) (k : Option Nat → Prog) (s : TState)
    (hm : s.guileMode = false) :
    interp (.initE body k) s =
      ((interp
          (k (match (interp body (applyEvents s (enterEvents s))).1 with
            | .ret v => some v
            | .thrown => none))
          (applyEvents s
            (enterEvents s ++ (interp body (applyEvents s (enterEvents s))).2 ++
              exitEvents s))).1,
        enterEvents s ++ (interp body (applyEvents s (enterEvents s))).2 ++
            exitEvents s ++
          (interp
            (k (match (interp body (applyEvents s (enterEvents s))).1 with
              | .ret v => some v
              | .thrown => none))
            (applyEvents s
              (enterEvents s ++ (interp body (applyEvents s (enterEvents s))).2 ++
                exitEvents s))).2) := by
  simp only [interp, hm, if_false, Bool.false_eq_true]

@[simp] theorem lockFree_nil : lockFree [] = true := rfl

@[simp] theorem lockFree_cons (e : Event) (tr : List Event) :
    lockFree (e :: tr) = (!isLockEvent e && lockFree tr) := by
  simp [lockFree]

@[simp] theorem lockFree_append (t1 t2 : List Event) :
    lockFree (t1 ++ t2) = (lockFree t1 && lockFree t2) := by
  simp [lockFree]

theorem lockFree_dropRuns (l : List Reg) :
    lockFree (l.map fun g => Event.dropRun g.rid) = true := by
  induction l with
  | nil => rfl
  | cons g l ih => simp [ih, isLockEvent]

/-- Once the thread-local `INITIALIZED` flag is set, no operation of the
layer touches `INITIALIZATION_LOCK` again: the acquisition in `init` is
guarded by `!initialized.load()`. -/
theorem lockFree_interp (p : Prog) :
    ∀ s : TState, s.initialized = true → lockFree (interp p s).2 = true := by
  induction p with
  | pure v => intro s h; rfl
  | throwE => intro s h; rfl
  | protect rid k ih =>
      intro s h
      rw [interp_protect]
      simp only [lockFree_cons, Bool.and_eq_true, Bool.not_eq_true']
      exact ⟨rfl, ih _ (applyEvent_initialized s _ h)⟩
  | dynwindScope body k ih_body ih_k =>
      intro s h
      rcases hb : interp body (applyEvent s .dynBegin) with ⟨o, tr⟩
      have hbl : lockFree tr = true := by
        have := ih_body (applyEvent s .dynBegin) (applyEvent_initialized s _ h)
        rwa [hb] at this
      cases o with
      | ret v =>
          rw [interp_dynwind_ret body k s v tr hb]
          simp only [lockFree_cons, lockFree_append, hbl, lockFree_dropRuns,
            isLockEvent, Bool.not_false, Bool.true_and, Bool.and_true,
            Bool.and_eq_true]
          exact ⟨rfl, ih_k v _ (applyEvents_initialized _ _ h)⟩
      | thrown =>
          rw [interp_dynwind_thrown body k s tr hb]
          simp [hbl, lockFree_dropRuns, isLockEvent]
  | blockE op k ih_op ih_k =>
      intro s h
      rcases hb : interp op (applyEvent s (.setMode false .blockEnter)) with ⟨o, tr⟩
      have hbl : lockFree tr = true := by
        have := ih_op (applyEvent s (.setMode false .blockEnter))
          (applyEvent_initialized s _ h)
        rwa [hb] at this
      cases o with
      | ret v =>
          rw [interp_blockE_ret op k s v tr hb]
          simp only [lockFree_cons, lockFree_append, hbl, isLockEvent,
            Bool.not_false, Bool.true_and, Bool.and_true, Bool.and_eq_true,
            lockFree_nil]
          exact ih_k v _ (applyEvents_initialized _ _ h)
      | thrown =>
          rw [interp_blockE_thrown op k s tr hb]
          simp [hbl, isLockEvent]
  | initE body k ih_body ih_k =>
      intro s h
      by_cases hm : s.guileMode = true
      · rcases hb : interp body s with ⟨o, tr⟩
        have hbl : lockFree tr = true := by
          have := ih_body s h
          rwa [hb] at this
        cases o with
        | ret v =>
            rw [interp_initE_fast_ret body k s hm v tr hb]
            simp only [lockFree_append, hbl, Bool.true_and]
            exact ih_k (some v) _ (applyEvents_initialized _ _ h)
        | thrown =>
            rw [interp_initE_fast_thrown body k s hm tr hb]
            exact hbl
      · rw [interp_initE_enter body k s (Bool.not_eq_true _ ▸ hm)]
        have hpre : enterEvents s = [.setInit, .setMode true .withGuileEnter] := by
          simp [enterEvents, h]
        have hpost : exitEvents s = [.setMode false .afterWithGuile] := by
          simp [exitEvents, h]
        simp only [hpre, hpost, lockFree_append, lockFree_cons, lockFree_nil,
          isLockEvent, Bool.not_false, Bool.true_and, Bool.and_true,
          Bool.and_eq_true]
        exact ⟨ih_body _ (applyEvents_initialized _ _ h),
          ih_k _ _ (applyEvents_initialized _ _ h)⟩

theorem applyEvents_singleton (s : TState) (e : Event) :
    applyEvents s [e] = applyEvent s e := rfl

theorem applyEvents_dropRuns_eq (s : TState) (l : List Reg) :
    applyEvents s (l.map fun g => Event.dropRun g.rid) = s := by
  induction l with
  | nil => rfl
  | cons g l ih => simpa [applyEvents_cons] using ih

theorem applyEvents_exitEvents_guileMode (x s : TState) :
    (applyEvents x (exitEvents s)).guileMode = false := by
  by_cases h : s.initialized <;>
    simp [exitEvents, h, applyEvents_cons, applyEvents_nil, applyEvents_singleton]

theorem applyEvents_enterEvents_guileMode (s : TState) :
    (applyEvents s (enterEvents s)).guileMode = true := by
  by_cases h : s.initialized <;>
    simp [enterEvents, h, applyEvents_cons, applyEvents_nil,
      applyEvents_append, applyEvents_singleton]

/-- Mode preservation: a closure legal for mode context `m` that returns
normally leaves `GUILE_MODE` as it found it. -/
theorem interp_mode_ret {p : Prog} {m : Bool} (hok : ModeOK p m) :
    ∀ (s : TState) (v : Nat), s.guileMode = m → (interp p s).1 = .ret v →
      (applyEvents s (interp p s).2).guileMode = m := by
  induction hok with
  | pure => intro s v hm _; exact hm
  | throwE => intro s v hm hr; exact absurd hr (by simp [interp_throwE])
  | @protect rid k m hk ih =>
      intro s v hm hr
      rw [interp_protect] at hr ⊢
      exact ih _ v hm hr
  | @dynwindScope body k m hbody hk ihb ihk =>
      intro s v hm hr
      rcases hb : interp body (applyEvent s .dynBegin) with ⟨o, tr⟩
      cases o with
      | thrown =>
          rw [interp_dynwind_thrown body k s tr hb] at hr
          exact absurd hr (by simp)
      | ret w =>
          rw [interp_dynwind_ret body k s w tr hb] at hr ⊢
          rw [applyEvents_append]
          have hmid : (applyEvents (applyEvent s .dynBegin) tr).guileMode = m := by
            have := ihb (applyEvent s .dynBegin) w hm (by rw [hb])
            rwa [hb] at this
          refine ihk w _ v ?_ hr
          rw [applyEvents_cons, applyEvents_append, applyEvents_append,
            applyEvents_singleton, applyEvents_dropRuns_eq]
          exact hmid
  | @blockE op k hop hk ihop ihk =>
      intro s v hm hr
      rcases hb : interp op (applyEvent s (.setMode false .blockEnter)) with ⟨o, tr⟩
      cases o with
      | thrown =>
          rw [interp_blockE_thrown op k s tr hb] at hr
          exact absurd hr (by simp)
      | ret w =>
          rw [interp_blockE_ret op k s w tr hb] at hr ⊢
          rw [applyEvents_append]
          refine ihk w _ v ?_ hr
          rw [applyEvents_cons, applyEvents_append, applyEvents_singleton]
          rfl
  | @initE body k m hbody hk ihb ihk =>
      intro s v hm hr
      cases m with
      | true =>
          rcases hb : interp body s with ⟨o, tr⟩
          cases o with
          | thrown =>
              rw [interp_initE_fast_thrown body k s hm tr hb] at hr
              exact absurd hr (by simp)
          | ret w =>
              rw [interp_initE_fast_ret body k s hm w tr hb] at hr ⊢
              rw [applyEvents_append]
              have hmid : (applyEvents s tr).guileMode = true := by
                have := ihb s w hm (by rw [hb])
                rwa [hb] at this
              exact ihk (some w) _ v hmid hr
      | false =>
          rw [interp_initE_enter body k s hm] at hr ⊢
          rw [applyEvents_append]
          refine ihk _ _ v ?_ hr
          rw [applyEvents_append]
          exact applyEvents_exitEvents_guileMode _ s

theorem invAll_nil {s : TState} : InvAll s [] ↔ Inv s := by
  constructor
  · intro h; simpa [InvAll, applyEvents_nil] using h 0
  · intro h n; simpa [InvAll, applyEvents_nil] using h

theorem invAll_cons {s : TState} {e : Event} {tr : List Event} :
    InvAll s (e :: tr) ↔ Inv s ∧ InvAll (applyEvent s e) tr := by
  constructor
  · intro h
    refine ⟨by simpa using h 0, fun n => ?_⟩
    simpa [applyEvents_cons, List.take_succ_cons] using h (n + 1)
  · rintro ⟨h0, h⟩ n
    cases n with
    | zero => simpa using h0
    | succ n => simpa [applyEvents_cons, List.take_succ_cons] using h n

theorem invAll_append {s : TState} {t1 t2 : List Event} :
    InvAll s (t1 ++ t2) ↔ InvAll s t1 ∧ InvAll (applyEvents s t1) t2 := by
  induction t1 generalizing s with
  | nil =>
      simp only [List.nil_append, applyEvents_nil]
      constructor
      · intro h; exact ⟨invAll_nil.2 (by simpa using h 0), h⟩
      · rintro ⟨_, h⟩; exact h
  | cons e t1 ih =>
      simp only [List.cons_append, invAll_cons, applyEvents_cons, ih, and_assoc]

theorem invAll_last {s : TState} {tr : List Event} (h : InvAll s tr) :
    Inv (applyEvents s tr) := by
  simpa [List.take_length] using h tr.length

theorem inv_mode_false {s : TState} (h : s.guileMode = false) : Inv s := by
  intro hm
  rw [hm] at h
  exact absurd h (by simp)

theorem invAll_dropRuns {s : TState} (h : Inv s) (l : List Reg) :
    InvAll s (l.map fun g => Event.dropRun g.rid) := by
  induction l with
  | nil => exact invAll_nil.2 h
  | cons g l ih => exact invAll_cons.2 ⟨h, ih⟩

theorem applyEvents_enterEvents_initialized (s : TState) :
    (applyEvents s (enterEvents s)).initialized = true := by
  by_cases hi : s.initialized <;>
    simp [enterEvents, hi, applyEvents_cons, applyEvents_nil,
      applyEvents_append, applyEvents_singleton]

theorem invAll_enterEvents {s : TState} (hinv : Inv s) : InvAll s (enterEvents s) := by
  by_cases hi : s.initialized
  · rw [show enterEvents s = [Event.setInit, Event.setMode true .withGuileEnter] by
      simp [enterEvents, hi]]
    exact invAll_cons.2 ⟨hinv, invAll_cons.2 ⟨fun _ => rfl, invAll_nil.2 fun _ => rfl⟩⟩
  · rw [show enterEvents s =
        [Event.lockAcquire, Event.setInit, Event.setMode true .withGuileEnter] by
      simp [enterEvents, hi]]
    exact invAll_cons.2 ⟨hinv, invAll_cons.2 ⟨hinv,
      invAll_cons.2 ⟨fun _ => rfl, invAll_nil.2 fun _ => rfl⟩⟩⟩

theorem invAll_exitEvents {x : TState} (s : TState) (hx : Inv x) :
    InvAll x (exitEvents s) := by
  by_cases hi : s.initialized
  · rw [show exitEvents s = [Event.setMode false .afterWithGuile] by
      simp [exitEvents, hi]]
    exact invAll_cons.2 ⟨hx, invAll_nil.2 (inv_mode_false rfl)⟩
  · rw [show exitEvents s = [Event.setMode false .afterWithGuile, Event.lockRelease] by
      simp [exitEvents, hi]]
    exact invAll_cons.2 ⟨hx, invAll_cons.2 ⟨inv_mode_false rfl,
      invAll_nil.2 (inv_mode_false rfl)⟩⟩

/-- Invariant preservation: from a state satisfying `active ⇒ bootstrapped`,
every operation of the layer keeps the invariant at every intermediate
state. -/
theorem invAll_interp {p : Prog} {m : Bool} (hok : ModeOK p m) :
    ∀ s : TState, s.guileMode = m → Inv s → InvAll s (interp p s).2 := by
  induction hok with
  | pure => intro s hm hinv; exact invAll_nil.2 hinv
  | throwE => intro s hm hinv; exact invAll_nil.2 hinv
  | @protect rid k m hk ih =>
      intro s hm hinv
      rw [interp_protect]
      exact invAll_cons.2 ⟨hinv, ih _ hm hinv⟩
  | @dynwindScope body k m hbody hk ihb ihk =>
      intro s hm hinv
      rcases hb : interp body (applyEvent s .dynBegin) with ⟨o, tr⟩
      have hBodyAll : InvAll (applyEvent s .dynBegin) tr := by
        have := ihb (applyEvent s .dynBegin) hm hinv
        rwa [hb] at this
      have hLast : Inv (applyEvents (applyEvent s .dynBegin) tr) := invAll_last hBodyAll
      cases o with
      | ret w =>
          rw [interp_dynwind_ret body k s w tr hb]
          rw [invAll_append]
          constructor
          · rw [invAll_cons]
            refine ⟨hinv, ?_⟩
            rw [invAll_append, invAll_append]
            refine ⟨⟨hBodyAll, invAll_dropRuns hLast _⟩, ?_⟩
            rw [applyEvents_append, applyEvents_dropRuns_eq]
            exact invAll_cons.2 ⟨hLast, invAll_nil.2 hLast⟩
          · refine ihk w _ ?_ ?_
            · rw [applyEvents_cons, applyEvents_append, applyEvents_append,
                applyEvents_singleton, applyEvents_dropRuns_eq]
              have := interp_mode_ret hbody (applyEvent s .dynBegin) w hm (by rw [hb])
              rw [hb] at this
              exact this
            · rw [applyEvents_cons, applyEvents_append, applyEvents_append,
                applyEvents_singleton, applyEvents_dropRuns_eq]
              exact hLast
      | thrown =>
          rw [interp_dynwind_thrown body k s tr hb]
          rw [invAll_cons]
          refine ⟨hinv, ?_⟩
          rw [invAll_append, invAll_append]
          refine ⟨⟨hBodyAll, invAll_dropRuns hLast _⟩, ?_⟩
          rw [applyEvents_append, applyEvents_dropRuns_eq]
          exact invAll_cons.2 ⟨hLast, invAll_nil.2 hLast⟩
  | @blockE op k hop hk ihop ihk =>
      intro s hm hinv
      rcases hb : interp op (applyEvent s (.setMode false .blockEnter)) with ⟨o, tr⟩
      have hOpAll : InvAll (applyEvent s (.setMode false .blockEnter)) tr := by
        have := ihop (applyEvent s (.setMode false .blockEnter)) rfl
          (inv_mode_false rfl)
        rwa [hb] at this
      have hInit : s.initialized = true := hinv hm
      have hInitMid :
          (applyEvents (applyEvent s (.setMode false .blockEnter)) tr).initialized
            = true := applyEvents_initialized _ _ hInit
      cases o with
      | ret w =>
          rw [interp_blockE_ret op k s w tr hb]
          rw [invAll_append]
          constructor
          · rw [invAll_cons]
            refine ⟨hinv, ?_⟩
            rw [invAll_append]
            refine ⟨hOpAll, ?_⟩
            exact invAll_cons.2 ⟨invAll_last hOpAll, invAll_nil.2 fun _ => hInitMid⟩
          · refine ihk w _ ?_ ?_
            · rw [applyEvents_cons, applyEvents_append, applyEvents_singleton]
              rfl
            · rw [applyEvents_cons, applyEvents_append, applyEvents_singleton]
              exact fun _ => hInitMid
      | thrown =>
          rw [interp_blockE_thrown op k s tr hb]
          exact invAll_cons.2 ⟨hinv, hOpAll⟩
  | @initE body k m hbody hk ihb ihk =>
      intro s hm hinv
      cases m with
      | true =>
          rcases hb : interp body s with ⟨o, tr⟩
          have hBodyAll : InvAll s tr := by
            have := ihb s hm hinv
            rwa [hb] at this
          cases o with
          | ret w =>
              rw [interp_initE_fast_ret body k s hm w tr hb]
              rw [invAll_append]
              refine ⟨hBodyAll, ihk (some w) _ ?_ (invAll_last hBodyAll)⟩
              have := interp_mode_ret hbody s w hm (by rw [hb])
              rwa [hb] at this
          | thrown =>
              rw [interp_initE_fast_thrown body k s hm tr hb]
              exact hBodyAll
      | false =>
          rw [interp_initE_enter body k s hm]
          have hBodyAll :
              InvAll (applyEvents s (enterEvents s))
                (interp body (applyEvents s (enterEvents s))).2 :=
            ihb _ (applyEvents_enterEvents_guileMode s)
              (fun _ => applyEvents_enterEvents_initialized s)
          rw [invAll_append]
          constructor
          · rw [invAll_append]
            constructor
            · rw [invAll_append]
              exact ⟨invAll_enterEvents hinv, hBodyAll⟩
            · rw [applyEvents_append]
              exact invAll_exitEvents s (invAll_last hBodyAll)
          · refine ihk _ _ ?_ ?_
            · rw [applyEvents_append]
              exact applyEvents_exitEvents_guileMode _ s
            · rw [applyEvents_append]
              exact inv_mode_false (applyEvents_exitEvents_guileMode _ s)

theorem interp_setMode_false_site (p : Prog) :
    ∀ (s : TState) (site : Site),
      Event.setMode false site ∈ (interp p s).2 →
      site = .blockEnter ∨ site = .afterWithGuile := by
  induction p with
  | pure v => intro s site h; simp [interp_pure] at h
  | throwE => intro s site h; simp [interp_throwE] at h
  | protect rid k ih =>
      intro s site h
      rw [interp_protect] at h
      rcases List.mem_cons.1 h with h | h
      · exact absurd h (by simp)
      · exact ih _ site h
  | dynwindScope body k ih_body ih_k =>
      intro s site h
      rcases hb : interp body (applyEvent s .dynBegin) with ⟨o, tr⟩
      cases o with
      | ret v =>
          rw [interp_dynwind_ret body k s v tr hb] at h
          rcases List.mem_append.1 h with h | h
          · rcases List.mem_cons.1 h with h | h
            · exact absurd h (by simp)
            · rcases List.mem_append.1 h with h | h
              · rcases List.mem_append.1 h with h | h
                · exact ih_body _ site (by rw [hb]; exact h)
                · obtain ⟨g, -, hg⟩ := List.mem_map.1 h
                  exact absurd hg (by simp)
              · exact absurd (List.mem_singleton.1 h) (by simp)
          · exact ih_k v _ site h
      | thrown =>
          rw [interp_dynwind_thrown body k s tr hb] at h
          rcases List.mem_cons.1 h with h | h
          · exact absurd h (by simp)
          · rcases List.mem_append.1 h with h | h
            · rcases List.mem_append.1 h with h | h
              · exact ih_body _ site (by rw [hb]; exact h)
              · obtain ⟨g, -, hg⟩ := List.mem_map.1 h
                exact absurd hg (by simp)
            · exact absurd (List.mem_singleton.1 h) (by simp)
  | blockE op k ih_op ih_k =>
      intro s site h
      rcases hb : interp op (applyEvent s (.setMode false .blockEnter)) with ⟨o, tr⟩
      cases o with
      | ret v =>
          rw [interp_blockE_ret op k s v tr hb] at h
          rcases List.mem_append.1 h with h | h
          · rcases List.mem_cons.1 h with h | h
            · left; exact (Event.setMode.inj h).2
            · rcases List.mem_append.1 h with h | h
              · exact ih_op _ site (by rw [hb]; exact h)
              · exact absurd (List.mem_singleton.1 h) (by simp)
          · exact ih_k v _ site h
      | thrown =>
          rw [interp_blockE_thrown op k s tr hb] at h
          rcases List.mem_cons.1 h with h | h
          · left; exact (Event.setMode.inj h).2
          · exact ih_op _ site (by rw [hb]; exact h)
  | initE body k ih_body ih_k =>
      intro s site h
      by_cases hm : s.guileMode = true
      · rcases hb : interp body s with ⟨o, tr⟩
        cases o with
        | ret v =>
            rw [interp_initE_fast_ret body k s hm v tr hb] at h
            rcases List.mem_append.1 h with h | h
            · exact ih_body _ site (by rw [hb]; exact h)
            · exact ih_k (some v) _ site h
        | thrown =>
            rw [interp_initE_fast_thrown body k s hm tr hb] at h
            exact ih_body _ site (by rw [hb]; exact h)
      · rw [interp_initE_enter body k s (Bool.not_eq_true _ ▸ hm)] at h
        rcases List.mem_append.1 h with h | h
        · rcases List.mem_append.1 h with h | h
          · rcases List.mem_append.1 h with h | h
            · by_cases hi : s.initialized <;> simp [enterEvents, hi] at h
            · exact ih_body _ site h
          · by_cases hi : s.initialized
            · rw [show exitEvents s = [Event.setMode false .afterWithGuile] by
                simp [exitEvents, hi]] at h
              right; exact (Event.setMode.inj (List.mem_singleton.1 h)).2
            · rw [show exitEvents s =
                  [Event.setMode false .afterWithGuile, Event.lockRelease] by
                simp [exitEvents, hi]] at h
              rcases List.mem_cons.1 h with h2 | h2
              · right; exact (Event.setMode.inj h2).2
              · exact absurd (List.mem_singleton.1 h2) (by simp)
        · exact ih_k _ _ site h

theorem regSafe_enterEvents (s : TState) : ∀ e ∈ enterEvents s, regSafe e = true := by
  intro e he
  by_cases hi : s.initialized
  · simp [enterEvents, hi] at he
    rcases he with h | h <;> subst h <;> rfl
  · simp [enterEvents, hi] at he
    rcases he with h | h | h <;> subst h <;> rfl

theorem regSafe_exitEvents (s : TState) : ∀ e ∈ exitEvents s, regSafe e = true := by
  intro e he
  by_cases hi : s.initialized
  · simp [exitEvents, hi] at he
    subst he; rfl
  · simp [exitEvents, hi] at he
    rcases he with h | h <;> subst h <;> rfl

theorem interp_regSafe (p : Prog) :
    ∀ s : TState, ∀ e ∈ (interp p s).2, regSafe e = true := by
  induction p with
  | pure v => intro s e h; simp [interp_pure] at h
  | throwE => intro s e h; simp [interp_throwE] at h
  | protect rid k ih =>
      intro s e h
      rw [interp_protect] at h
      rcases List.mem_cons.1 h with h | h
      · subst h; rfl
      · exact ih _ e h
  | dynwindScope body k ih_body ih_k =>
      intro s e h
      rcases hb : interp body (applyEvent s .dynBegin) with ⟨o, tr⟩
      cases o with
      | ret v =>
          rw [interp_dynwind_ret body k s v tr hb] at h
          rcases List.mem_append.1 h with h | h
          · rcases List.mem_cons.1 h with h | h
            · subst h; rfl
            · rcases List.mem_append.1 h with h | h
              · rcases List.mem_append.1 h with h | h
                · exact ih_body _ e (by rw [hb]; exact h)
                · obtain ⟨g, -, hg⟩ := List.mem_map.1 h
                  rw [← hg]; rfl
              · rw [List.mem_singleton.1 h]; rfl
          · exact ih_k v _ e h
      | thrown =>
          rw [interp_dynwind_thrown body k s tr hb] at h
          rcases List.mem_cons.1 h with h | h
          · subst h; rfl
          · rcases List.mem_append.1 h with h | h
            · rcases List.mem_append.1 h with h | h
              · exact ih_body _ e (by rw [hb]; exact h)
              · obtain ⟨g, -, hg⟩ := List.mem_map.1 h
                rw [← hg]; rfl
            · rw [List.mem_singleton.1 h]; rfl
  | blockE op k ih_op ih_k =>
      intro s e h
      rcases hb : interp op (applyEvent s (.setMode false .blockEnter)) with ⟨o, tr⟩
      cases o with
      | ret v =>
          rw [interp_blockE_ret op k s v tr hb] at h
          rcases List.mem_append.1 h with h | h
          · rcases List.mem_cons.1 h with h | h
            · subst h; rfl
            · rcases List.mem_append.1 h with h | h
              · exact ih_op _ e (by rw [hb]; exact h)
              · rw [List.mem_singleton.1 h]; rfl
          · exact ih_k v _ e h
      | thrown =>
          rw [interp_blockE_thrown op k s tr hb] at h
          rcases List.mem_cons.1 h with h | h
          · subst h; rfl
          · exact ih_op _ e (by rw [hb]; exact h)
  | initE body k ih_body ih_k =>
      intro s e h
      by_cases hm : s.guileMode = true
      · rcases hb : interp body s with ⟨o, tr⟩
        cases o with
        | ret v =>
            rw [interp_initE_fast_ret body k s hm v tr hb] at h
            rcases List.mem_append.1 h with h | h
            · exact ih_body _ e (by rw [hb]; exact h)
            · exact ih_k (some v) _ e h
        | thrown =>
            rw [interp_initE_fast_thrown body k s hm tr hb] at h
            exact ih_body _ e (by rw [hb]; exact h)
      · rw [interp_initE_enter body k s (Bool.not_eq_true _ ▸ hm)] at h
        rcases List.mem_append.1 h with h | h
        · rcases List.mem_append.1 h with h | h
          · rcases List.mem_append.1 h with h | h
            · exact regSafe_enterEvents s e h
            · exact ih_body _ e h
          · exact regSafe_exitEvents s e h
        · exact ih_k _ _ e h

theorem noExpl_applyEvent {s : TState} {e : Event} (h : noExpl s.winds = true)
    (he : regSafe e = true) : noExpl (applyEvent s e).winds = true := by
  cases e with
  | reg rid expl =>
      cases expl
      · rw [applyEvent_reg]
        cases hw : s.winds with
        | nil => simp [noExpl, pushReg]
        | cons f rest =>
            rw [hw] at h
            simp only [noExpl, pushReg, List.all_cons, Bool.and_eq_true,
              Bool.not_true, Bool.not_false] at h ⊢
            exact ⟨⟨trivial, h.1⟩, h.2⟩
      · simp [regSafe] at he
  | dynBegin => simpa [noExpl] using h
  | dynEnd b =>
      rw [applyEvent_dynEnd]
      cases hw : s.winds with
      | nil => simp [noExpl]
      | cons f rest =>
          rw [hw] at h
          simp only [noExpl, List.all_cons, Bool.and_eq_true, List.tail_cons] at h ⊢
          exact h.2
  | lockAcquire => exact h
  | lockRelease => exact h
  | setInit => exact h
  | setMode b site => exact h
  | dropRun rid => exact h

theorem noExpl_applyEvents {s : TState} {tr : List Event} (h : noExpl s.winds = true)
    (he : ∀ e ∈ tr, regSafe e = true) : noExpl (applyEvents s tr).winds = true := by
  induction tr generalizing s with
  | nil => exact h
  | cons e tr ih =>
      rw [applyEvents_cons]
      exact ih (noExpl_applyEvent h (he e (List.mem_cons_self e tr)))
        fun x hx => he x (List.mem_cons_of_mem e hx)

theorem noExpl_interp (p : Prog) (s : TState) (h : noExpl s.winds = true) :
    noExpl (applyEvents s (interp p s).2).winds = true :=
  noExpl_applyEvents h (interp_regSafe p s)

@[simp] theorem count_dropRuns_dynBegin (l : List Reg) :
    (l.map fun g => Event.dropRun g.rid).count Event.dynBegin = 0 := by
  rw [List.count_eq_zero]
  intro hmem
  obtain ⟨g, -, hg⟩ := List.mem_map.1 hmem
  exact absurd hg (by simp)

@[simp] theorem count_dropRuns_dynEnd (l : List Reg) (b : Bool) :
    (l.map fun g => Event.dropRun g.rid).count (Event.dynEnd b) = 0 := by
  rw [List.count_eq_zero]
  intro hmem
  obtain ⟨g, -, hg⟩ := List.mem_map.1 hmem
  exact absurd hg (by simp)


/-- Wind-stack discipline: every trace of the layer has as many frame pushes
(`scm_dynwind_begin`) as frame pops (normal `scm_dynwind_end` plus pops by
Guile's unwinding). -/
theorem interp_balance (p : Prog) :
    ∀ s : TState, beginCount (interp p s).2 = endCount (interp p s).2 := by
  induction p with
  | pure v => intro s; rfl
  | throwE => intro s; rfl
  | protect rid k ih =>
      intro s
      rw [interp_protect]
      have hk := ih (applyEvent s (.reg rid false))
      simp [beginCount, endCount, List.count_cons, beq_iff_eq] at hk ⊢
      omega
  | dynwindScope body k ih_body ih_k =>
      intro s
      rcases hb : interp body (applyEvent s .dynBegin) with ⟨o, tr⟩
      have hbt := ih_body (applyEvent s .dynBegin)
      rw [hb] at hbt
      cases o with
      | ret v =>
          rw [interp_dynwind_ret body k s v tr hb]
          have hkt := ih_k v (applyEvents s
            (Event.dynBegin ::
              (tr ++
                (((applyEvents (applyEvent s .dynBegin) tr).winds.headD []).filter
                    (·.explicitly)).map (fun g => Event.dropRun g.rid) ++
                [Event.dynEnd true])))
          simp [beginCount, endCount, List.count_cons, List.count_append,
            beq_iff_eq] at hbt hkt ⊢
          omega
      | thrown =>
          rw [interp_dynwind_thrown body k s tr hb]
          simp [beginCount, endCount, List.count_cons, List.count_append,
            beq_iff_eq] at hbt ⊢
          omega
  | blockE op k ih_op ih_k =>
      intro s
      rcases hb : interp op (applyEvent s (.setMode false .blockEnter)) with ⟨o, tr⟩
      have hot := ih_op (applyEvent s (.setMode false .blockEnter))
      rw [hb] at hot
      cases o with
      | ret v =>
          rw [interp_blockE_ret op k s v tr hb]
          have hkt := ih_k v (applyEvents s
            (Event.setMode false .blockEnter ::
              (tr ++ [Event.setMode true .afterBlock])))
          simp [beginCount, endCount, List.count_cons, List.count_append,
            beq_iff_eq] at hot hkt ⊢
          omega
      | thrown =>
          rw [interp_blockE_thrown op k s tr hb]
          simp [beginCount, endCount, List.count_cons, beq_iff_eq] at hot ⊢
          omega
  | initE body k ih_body ih_k =>
      intro s
      by_cases hm : s.guileMode = true
      · rcases hb : interp body s with ⟨o, tr⟩
        have hbt := ih_body s
        rw [hb] at hbt
        cases o with
        | ret v =>
            rw [interp_initE_fast_ret body k s hm v tr hb]
            have hkt := ih_k (some v) (applyEvents s tr)
            simp [beginCount, endCount, List.count_append] at hbt hkt ⊢
            omega
        | thrown =>
            rw [interp_initE_fast_thrown body k s hm tr hb]
            exact hbt
      · rw [interp_initE_enter body k s (Bool.not_eq_true _ ▸ hm)]
        have hbt := ih_body (applyEvents s (enterEvents s))
        have hkt := ih_k
          (match (interp body (applyEvents s (enterEvents s))).1 with
            | .ret v => some v
            | .thrown => none)
          (applyEvents s
            (enterEvents s ++ (interp body (applyEvents s (enterEvents s))).2 ++
              exitEvents s))
        have hent : beginCount (enterEvents s) = 0 ∧ endCount (enterEvents s) = 0 := by
          by_cases hi : s.initialized <;>
            simp [enterEvents, hi, beginCount, endCount, List.count_cons,
              beq_iff_eq]
        have hext : beginCount (exitEvents s) = 0 ∧ endCount (exitEvents s) = 0 := by
          by_cases hi : s.initialized <;>
            simp [exitEvents, hi, beginCount, endCount, List.count_cons,
              beq_iff_eq]
        simp [beginCount, endCount, List.count_append] at hbt hkt hent hext ⊢
        omega


theorem runInit_fast (body : Prog) (s : TState) (hm : s.guileMode = true) :
    runInit body s = (hostOf (interp body s).1, (interp body s).2) := by
  simp only [runInit, hm, if_true]

theorem runInit_enter (body : Prog) (s : TState) (hm : s.guileMode = false) :
    runInit body s =
      (.normal
        (match (interp body (applyEvents s (enterEvents s))).1 with
          | .ret v => some v
          | .thrown => none),
        enterEvents s ++ (interp body (applyEvents s (enterEvents s))).2 ++
          exitEvents s) := by
  simp only [runInit, hm, Bool.false_eq_true, if_false]

theorem runBlock_ret (op : Prog) (s : TState) (v : Nat) (tr : List Event)
    (h : interp op (applyEvent s (.setMode false .blockEnter)) = (.ret v, tr)) :
    runBlock op s =
      (.value v,
        Event.setMode false .blockEnter :: (tr ++ [Event.setMode true .afterBlock])) := by
  simp only [runBlock, h]

theorem runBlock_thrown (op : Prog) (s : TState) (tr : List Event)
    (h : interp op (applyEvent s (.setMode false .blockEnter)) = (.thrown, tr)) :
    runBlock op s = (.abort, Event.setMode false .blockEnter :: tr) := by
  simp only [runBlock, h]

/-- A thread state before any VM use. -/
def sFresh : TState := { initialized := false, guileMode := false, winds := [] }

/-- A thread state after a completed first `init` (bootstrapped, outside
guile mode). -/
def sReady : TState := { initialized := true, guileMode := false, winds := [] }

/-- A thread state inside a running `init` callback (bootstrapped, in guile
mode). -/
def sActive : TState := { initialized := true, guileMode := true, winds := [] }

/-- C1: on the top-level (non-reentrant) path, `init` returns `None` exactly
when the closure (or anything it calls) ends in a non-local exit that nothing
inside its own call caught, returns `Some v` exactly when the closure returns
`v`, and the value returned is precisely the output slot of the callback
transfer cell, which stays `None` exactly when the trampoline did not run to
completion. -/
theorem init_abort_signaling (body : Prog) (s : TState) (hm : s.guileMode = false) :
    ((runInit body s).1 = .normal none ↔
      (interp body (applyEvents s (enterEvents s))).1 = .thrown)
    ∧ (∀ v : Nat, (runInit body s).1 = .normal (some v) ↔
        (interp body (applyEvents s (enterEvents s))).1 = .ret v)
    ∧ (runInit body s).1 = .normal (initCell body s).output
    ∧ ((initCell body s).output = none ↔
        (interp body (applyEvents s (enterEvents s))).1 = .thrown) := by
  rcases ho : (interp body (applyEvents s (enterEvents s))).1 with v | _ <;>
    simp [runInit_enter body s hm, initCell, withGuileCallbackCell, ho]

theorem init_abort_signaling_witness :
    sFresh.guileMode = false
    ∧ ((runInit (.pure 3) sFresh).1 = .normal none ↔
        (interp (.pure 3) (applyEvents sFresh (enterEvents sFresh))).1 = .thrown)
    ∧ (∀ v : Nat, (runInit (.pure 3) sFresh).1 = .normal (some v) ↔
        (interp (.pure 3) (applyEvents sFresh (enterEvents sFresh))).1 = .ret v)
    ∧ (runInit (.pure 3) sFresh).1 = .normal (initCell (.pure 3) sFresh).output
    ∧ ((initCell (.pure 3) sFresh).output = none ↔
        (interp (.pure 3) (applyEvents sFresh (enterEvents sFresh))).1 = .thrown) :=
  ⟨rfl, init_abort_signaling (.pure 3) sFresh rfl⟩

/-- C3: when `GUILE_MODE` is already set, `init` takes the reentrant fast
path: it runs the closure directly and wraps a normal return in `Some`,
adding no events of its own (no `scm_with_guile`, no lock use, no flag
stores), so a nested `init` leaves the outer call's state intact. -/
theorem init_reentrant_fast (body : Prog) (s : TState) (hm : s.guileMode = true) :
    runInit body s = (hostOf (interp body s).1, (interp body s).2)
    ∧ (∀ v : Nat, (interp body s).1 = .ret v →
        (runInit body s).1 = .normal (some v)) := by
  refine ⟨runInit_fast body s hm, fun v hv => ?_⟩
  rw [runInit_fast body s hm]
  simp [hostOf, hv]

theorem init_reentrant_fast_witness :
    sActive.guileMode = true
    ∧ runInit (.pure 5) sActive =
        (hostOf (interp (.pure 5) sActive).1, (interp (.pure 5) sActive).2)
    ∧ (∀ v : Nat, (interp (.pure 5) sActive).1 = .ret v →
        (runInit (.pure 5) sActive).1 = .normal (some v)) :=
  ⟨rfl, init_reentrant_fast (.pure 5) sActive rfl⟩

/-- C4: for an operation that returns normally, `GuileVM::block` stores
`GUILE_MODE := false` on entering the escape window, stores it back to `true`
after `scm_without_guile` returns, returns the operation's output directly
(no `Option`, no panic: the output slot is filled), and leaves the thread's
mode equal to what it was before the call. -/
theorem block_mode_restoration (op : Prog) (s : TState) (hm : s.guileMode = true)
    (v : Nat) (tr : List Event)
    (hop : interp op (applyEvent s (.setMode false .blockEnter)) = (.ret v, tr)) :
    runBlock op s =
      (.value v,
        Event.setMode false .blockEnter :: (tr ++ [Event.setMode true .afterBlock]))
    ∧ (applyEvent s (.setMode false .blockEnter)).guileMode = false
    ∧ (applyEvents s (runBlock op s).2).guileMode = s.guileMode := by
  have h1 := runBlock_ret op s v tr hop
  refine ⟨h1, rfl, ?_⟩
  rw [h1]
  rw [applyEvents_cons, applyEvents_append, applyEvents_singleton]
  simp [hm]

theorem block_mode_restoration_witness :
    sActive.guileMode = true
    ∧ interp (.pure 9) (applyEvent sActive (.setMode false .blockEnter)) = (.ret 9, [])
    ∧ (runBlock (.pure 9) sActive =
        (.value 9,
          Event.setMode false .blockEnter :: ([] ++ [Event.setMode true .afterBlock]))
      ∧ (applyEvent sActive (.setMode false .blockEnter)).guileMode = false
      ∧ (applyEvents sActive (runBlock (.pure 9) sActive).2).guileMode
          = sActive.guileMode) :=
  ⟨rfl, rfl, block_mode_restoration (.pure 9) sActive rfl 9 [] rfl⟩


/-- C5: every operation of the layer preserves the per-thread invariant
`GUILE_MODE ⇒ INITIALIZED` at every intermediate state (every prefix of the
event trace of a top-level `init` call, whatever mix of nested `init`,
`block` and guard scopes the closure performs), and `GUILE_MODE` is stored
`false` only at the two source sites: after `scm_with_guile` returns in
`init`, and on entering a blocking-escape window in
`without_guile_callback`. -/
theorem active_implies_bootstrapped (body : Prog) (s : TState)
    (hok : ModeOK body true) (hinv : Inv s) :
    InvAll s (runInit body s).2
    ∧ (∀ site : Site, Event.setMode false site ∈ (runInit body s).2 →
        site = .blockEnter ∨ site = .afterWithGuile) := by
  constructor
  · by_cases hm : s.guileMode = true
    · rw [runInit_fast body s hm]
      exact invAll_interp hok s hm hinv
    · have hm' : s.guileMode = false := Bool.not_eq_true _ ▸ hm
      rw [runInit_enter body s hm']
      have h2 : InvAll s (interp (.initE body fun _ => .pure 0) s).2 :=
        invAll_interp (ModeOK.initE hok fun r => ModeOK.pure) s hm' hinv
      rw [interp_initE_enter body _ s hm'] at h2
      simpa [interp_pure] using h2
  · intro site hmem
    by_cases hm : s.guileMode = true
    · rw [runInit_fast body s hm] at hmem
      exact interp_setMode_false_site body s site hmem
    · have hm' : s.guileMode = false := Bool.not_eq_true _ ▸ hm
      rw [runInit_enter body s hm'] at hmem
      refine interp_setMode_false_site (.initE body fun _ => .pure 0) s site ?_
      rw [interp_initE_enter body _ s hm']
      simpa [interp_pure] using hmem

theorem active_implies_bootstrapped_witness :
    Inv sFresh
    ∧ (InvAll sFresh (runInit (.pure 0) sFresh).2
      ∧ (∀ site : Site, Event.setMode false site ∈ (runInit (.pure 0) sFresh).2 →
          site = .blockEnter ∨ site = .afterWithGuile)) :=
  ⟨by decide, active_implies_bootstrapped (.pure 0) sFresh ModeOK.pure (by decide)⟩

/-- C6: on the non-reentrant path, `init` touches `INITIALIZATION_LOCK` if
and only if the thread's `INITIALIZED` flag is false at the time of the call;
when taken, the acquisition is the very first event and the release the very
last, with the entire `scm_with_guile` invocation (and everything the closure
does) strictly between the two, and nothing in between touches the lock; a
thread whose flag is already set produces a completely lock-free trace. -/
theorem bootstrap_lock_discipline (body : Prog) (s : TState)
    (hm : s.guileMode = false) :
    (s.initialized = true → lockFree (runInit body s).2 = true)
    ∧ (s.initialized = false →
        (runInit body s).2 =
          Event.lockAcquire ::
            (([Event.setInit, Event.setMode true .withGuileEnter] ++
                (interp body (applyEvents s (enterEvents s))).2 ++
                [Event.setMode false .afterWithGuile]) ++
              [Event.lockRelease])
        ∧ lockFree
            ([Event.setInit, Event.setMode true .withGuileEnter] ++
              (interp body (applyEvents s (enterEvents s))).2 ++
              [Event.setMode false .afterWithGuile]) = true) := by
  constructor
  · intro hi
    rw [runInit_enter body s hm]
    have hbody := lockFree_interp body (applyEvents s (enterEvents s))
      (applyEvents_enterEvents_initialized s)
    simp only [lockFree_append, Bool.and_eq_true]
    refine ⟨⟨?_, hbody⟩, ?_⟩
    · rw [show enterEvents s = [Event.setInit, Event.setMode true .withGuileEnter] by
        simp [enterEvents, hi]]
      rfl
    · rw [show exitEvents s = [Event.setMode false .afterWithGuile] by
        simp [exitEvents, hi]]
      rfl
  · intro hi
    have hbody := lockFree_interp body (applyEvents s (enterEvents s))
      (applyEvents_enterEvents_initialized s)
    constructor
    · rw [runInit_enter body s hm]
      rw [show enterEvents s =
        [Event.lockAcquire, Event.setInit, Event.setMode true .withGuileEnter] by
          simp [enterEvents, hi]]
      rw [show exitEvents s =
        [Event.setMode false .afterWithGuile, Event.lockRelease] by
          simp [exitEvents, hi]]
      simp
    · simp [isLockEvent, hbody]

theorem bootstrap_lock_discipline_witness :
    sFresh.guileMode = false
    ∧ sFresh.initialized = false
    ∧ ((runInit (.pure 7) sFresh).2 =
        Event.lockAcquire ::
          (([Event.setInit, Event.setMode true .withGuileEnter] ++
              (interp (.pure 7) (applyEvents sFresh (enterEvents sFresh))).2 ++
              [Event.setMode false .afterWithGuile]) ++
            [Event.lockRelease])
      ∧ lockFree
          ([Event.setInit, Event.setMode true .withGuileEnter] ++
            (interp (.pure 7) (applyEvents sFresh (enterEvents sFresh))).2 ++
            [Event.setMode false .afterWithGuile]) = true) :=
  ⟨rfl, rfl, (bootstrap_lock_discipline (.pure 7) sFresh rfl).2 rfl⟩

theorem filter_expl_nil {ws : List (List Reg)} (h : noExpl ws = true) :
    (ws.headD []).filter (·.explicitly) = [] := by
  cases ws with
  | nil => rfl
  | cons f rest =>
      simp only [noExpl, List.all_cons, Bool.and_eq_true] at h
      rw [List.filter_eq_nil_iff]
      intro g hg
      have := List.all_eq_true.1 h.1 g hg
      simp at this
      simp [this]

/-- C2: inside a `dynwind_scope` whose wind stack carries only flags-`0`
registrations (as `Dynwind::protect` always makes): if the body ends in a
non-local exit, each registration of the guard's frame has its destructor run
exactly once (the frame mapped once, most recent first), before the frame is
popped and before the exit propagates past the guard; if the body returns
normally, the guard's destruction runs no registered destructor at all (the
segment between the body's events and the continuation is exactly the frame
pop), because the registration passed flags `0` rather than
`SCM_F_WIND_EXPLICITLY`, leaving normal destruction to Rust and avoiding a
double free. -/
theorem protect_unwind_cleanup (body : Prog) (k : Nat → Prog) (s : TState)
    (hne : noExpl s.winds = true) :
    (∀ (v : Nat) (tr : List Event),
      interp body (applyEvent s .dynBegin) = (.ret v, tr) →
      interp (.dynwindScope body k) s =
        ((interp (k v)
            (applyEvents s (Event.dynBegin :: (tr ++ [Event.dynEnd true])))).1,
          (Event.dynBegin :: (tr ++ [Event.dynEnd true])) ++
            (interp (k v)
              (applyEvents s (Event.dynBegin :: (tr ++ [Event.dynEnd true])))).2))
    ∧ (∀ tr : List Event,
      interp body (applyEvent s .dynBegin) = (.thrown, tr) →
      interp (.dynwindScope body k) s =
        (.thrown,
          Event.dynBegin ::
            (tr ++
              ((applyEvents (applyEvent s .dynBegin) tr).winds.headD []).map
                (fun g => Event.dropRun g.rid) ++
              [Event.dynEnd false]))) := by
  constructor
  · intro v tr hb
    have hne0 : noExpl (applyEvent s .dynBegin).winds = true := by
      simpa [noExpl] using hne
    have hnetr : noExpl (applyEvents (applyEvent s .dynBegin) tr).winds = true := by
      have := noExpl_interp body (applyEvent s .dynBegin) hne0
      rwa [hb] at this
    have hfil := filter_expl_nil hnetr
    rw [interp_dynwind_ret body k s v tr hb]
    rw [hfil]
    simp
  · intro tr hb
    exact interp_dynwind_thrown body k s tr hb

theorem protect_unwind_cleanup_witness :
    noExpl sActive.winds = true
    ∧ interp (.protect 7 .throwE) (applyEvent sActive .dynBegin) =
        (.thrown, [Event.reg 7 false])
    ∧ interp (.dynwindScope (.protect 7 .throwE) fun v => .pure v) sActive =
        (.thrown,
          Event.dynBegin ::
            ([Event.reg 7 false] ++
              ((applyEvents (applyEvent sActive .dynBegin)
                  [Event.reg 7 false]).winds.headD []).map
                (fun g => Event.dropRun g.rid) ++
              [Event.dynEnd false])) :=
  ⟨rfl, rfl,
    (protect_unwind_cleanup (.protect 7 .throwE) (fun v => .pure v) sActive rfl).2
      [Event.reg 7 false] rfl⟩

/-- C7: `dynwind_scope` pushes exactly one VM-level protection boundary
before running the scope function, pops it exactly once on every exit path
(after the body's own balanced events, with only destructor runs in
between), hands the continuation exactly the value the scope function
returned, and every trace of the layer has pushes and pops balanced. -/
theorem dynwind_push_pop_balanced (body : Prog) (k : Nat → Prog) (s : TState) :
    (∀ (v : Nat) (tr : List Event),
      interp body (applyEvent s .dynBegin) = (.ret v, tr) →
      ∃ ds : List Event,
        (∀ e ∈ ds, ∃ i : Nat, e = Event.dropRun i)
        ∧ interp (.dynwindScope body k) s =
            ((interp (k v)
                (applyEvents s (Event.dynBegin :: (tr ++ ds ++ [Event.dynEnd true])))).1,
              (Event.dynBegin :: (tr ++ ds ++ [Event.dynEnd true])) ++
                (interp (k v)
                  (applyEvents s
                    (Event.dynBegin :: (tr ++ ds ++ [Event.dynEnd true])))).2))
    ∧ (∀ tr : List Event,
      interp body (applyEvent s .dynBegin) = (.thrown, tr) →
      ∃ ds : List Event,
        (∀ e ∈ ds, ∃ i : Nat, e = Event.dropRun i)
        ∧ interp (.dynwindScope body k) s =
            (.thrown, Event.dynBegin :: (tr ++ ds ++ [Event.dynEnd false])))
    ∧ (∀ (p : Prog) (st : TState),
        beginCount (interp p st).2 = endCount (interp p st).2) := by
  refine ⟨fun v tr hb => ?_, fun tr hb => ?_, interp_balance⟩
  · refine ⟨(((applyEvents (applyEvent s .dynBegin) tr).winds.headD []).filter
        (·.explicitly)).map (fun g => Event.dropRun g.rid), ?_, ?_⟩
    · intro e he
      obtain ⟨g, -, hg⟩ := List.mem_map.1 he
      exact ⟨g.rid, hg.symm⟩
    · exact interp_dynwind_ret body k s v tr hb
  · refine ⟨((applyEvents (applyEvent s .dynBegin) tr).winds.headD []).map
        (fun g => Event.dropRun g.rid), ?_, ?_⟩
    · intro e he
      obtain ⟨g, -, hg⟩ := List.mem_map.1 he
      exact ⟨g.rid, hg.symm⟩
    · exact interp_dynwind_thrown body k s tr hb

theorem dynwind_push_pop_balanced_witness :
    interp (.protect 4 (.pure 2)) (applyEvent sActive .dynBegin) =
      (.ret 2, [Event.reg 4 false])
    ∧ (∃ ds : List Event,
        (∀ e ∈ ds, ∃ i : Nat, e = Event.dropRun i)
        ∧ interp (.dynwindScope (.protect 4 (.pure 2)) fun v => .pure v) sActive =
            ((interp (.pure 2)
                (applyEvents sActive
                  (Event.dynBegin ::
                    ([Event.reg 4 false] ++ ds ++ [Event.dynEnd true])))).1,
              (Event.dynBegin ::
                  ([Event.reg 4 false] ++ ds ++ [Event.dynEnd true])) ++
                (interp (.pure 2)
                  (applyEvents sActive
                    (Event.dynBegin ::
                      ([Event.reg 4 false] ++ ds ++ [Event.dynEnd true])))).2)) :=
  ⟨rfl,
    (dynwind_push_pop_balanced (.protect 4 (.pure 2)) (fun v => .pure v) sActive).1
      2 [Event.reg 4 false] rfl⟩


/-- C8: in both callback trampolines the user closure is taken out of its
`Option` before being invoked, so it is consumed at most once — a second
invocation of the trampoline on the same cell finds the slot empty and runs
no closure — and the output slot goes from `None` to `Some` at most once,
only as the recorded result of the single closure run. -/
theorem callback_cell_consumed_once {F O : Type} (run : F → Option O) (c : Cell F O) :
    ((withGuileCallbackCell run c).1.closure = none)
    ∧ ((withGuileCallbackCell run c).2 = c.closure.isSome)
    ∧ ((withGuileCallbackCell run ((withGuileCallbackCell run c).1)).2 = false)
    ∧ ((withGuileCallbackCell run ((withGuileCallbackCell run c).1)).1.output = none)
    ∧ (∀ v : O, c.output = none → (withGuileCallbackCell run c).1.output = some v →
        ∃ f, c.closure = some f ∧ run f = some v)
    ∧ ((withoutGuileCallbackCell run c).1.closure = none)
    ∧ ((withoutGuileCallbackCell run c).2 = c.closure.isSome)
    ∧ ((withoutGuileCallbackCell run ((withoutGuileCallbackCell run c).1)).2 = false)
    ∧ (∀ v : O, c.output = none → (withoutGuileCallbackCell run c).1.output = some v →
        ∃ f, c.closure = some f ∧ run f = some v) := by
  rcases c with ⟨cl, out⟩
  cases cl with
  | none => simp [withGuileCallbackCell, withoutGuileCallbackCell]
  | some f =>
      cases hr : run f with
      | none =>
          simp [withGuileCallbackCell, withoutGuileCallbackCell, hr]
          rintro v rfl h
          exact absurd h (by simp)
      | some w =>
          simp [withGuileCallbackCell, withoutGuileCallbackCell, hr]

theorem callback_cell_consumed_once_witness :
    (withGuileCallbackCell (fun n : Nat => some (n + 1))
        { closure := some 3, output := none }).1.closure = none
    ∧ (withGuileCallbackCell (fun n : Nat => some (n + 1))
        { closure := some 3, output := (none : Option Nat) }).2
        = (some 3 : Option Nat).isSome :=
  ⟨(callback_cell_consumed_once (fun n : Nat => some (n + 1))
      { closure := some 3, output := none }).1,
    (callback_cell_consumed_once (fun n : Nat => some (n + 1))
      { closure := some 3, output := none }).2.1⟩

/-- C10: called from inside a blocking-escape window (`GUILE_MODE` false,
`INITIALIZED` true), `init` takes the full non-reentrant path without
touching the bootstrap lock: the trace is exactly the two trampoline stores,
the closure's own events and the final `GUILE_MODE := false` store; a
normally returning closure yields `Some`; the thread leaves the call with
`GUILE_MODE` false, and the enclosing `block` then restores `GUILE_MODE` to
`true` around it. -/
theorem init_inside_block_window (body : Prog) (s : TState)
    (hm : s.guileMode = false) (hi : s.initialized = true) :
    lockFree (runInit body s).2 = true
    ∧ (runInit body s).2 =
        [Event.setInit, Event.setMode true .withGuileEnter] ++
          (interp body (applyEvents s (enterEvents s))).2 ++
          [Event.setMode false .afterWithGuile]
    ∧ (∀ v : Nat, (interp body (applyEvents s (enterEvents s))).1 = .ret v →
        (runInit body s).1 = .normal (some v))
    ∧ (applyEvents s (runInit body s).2).guileMode = false
    ∧ (∀ (v : Nat) (tr : List Event),
        interp body (applyEvents s (enterEvents s)) = (.ret v, tr) →
        (runBlock (.initE body fun r => .pure (encodeOpt r))
            { s with guileMode := true }).1 = .value (v + 1)
        ∧ (applyEvents { s with guileMode := true }
            (runBlock (.initE body fun r => .pure (encodeOpt r))
              { s with guileMode := true }).2).guileMode = true) := by
  have hpre : enterEvents s = [Event.setInit, Event.setMode true .withGuileEnter] := by
    simp [enterEvents, hi]
  have hpost : exitEvents s = [Event.setMode false .afterWithGuile] := by
    simp [exitEvents, hi]
  refine ⟨?_, ?_, ?_, ?_, ?_⟩
  · rw [runInit_enter body s hm]
    simp only [lockFree_append, Bool.and_eq_true]
    exact ⟨⟨by rw [hpre]; rfl,
      lockFree_interp body _ (applyEvents_enterEvents_initialized s)⟩,
      by rw [hpost]; rfl⟩
  · rw [runInit_enter body s hm, hpre, hpost]
  · intro v hv
    rw [runInit_enter body s hm]
    simp [hv]
  · rw [runInit_enter body s hm, applyEvents_append]
    exact applyEvents_exitEvents_guileMode _ s
  · intro v tr hb
    have hstate :
        applyEvent { s with guileMode := true } (.setMode false .blockEnter) = s := by
      cases s
      simp_all
    have hop : interp (.initE body fun r => .pure (encodeOpt r))
        (applyEvent { s with guileMode := true } (.setMode false .blockEnter)) =
        (.ret (v + 1), enterEvents s ++ tr ++ exitEvents s) := by
      rw [hstate]
      rw [interp_initE_enter body _ s hm]
      simp [hb, interp_pure, encodeOpt]
    have hrb := runBlock_ret (.initE body fun r => .pure (encodeOpt r))
      { s with guileMode := true } (v + 1) (enterEvents s ++ tr ++ exitEvents s) hop
    refine ⟨by rw [hrb], ?_⟩
    rw [hrb]
    rw [applyEvents_cons, applyEvents_append, applyEvents_singleton]
    rfl

theorem init_inside_block_window_witness :
    sReady.guileMode = false
    ∧ sReady.initialized = true
    ∧ lockFree (runInit (.pure 6) sReady).2 = true
    ∧ (applyEvents sReady (runInit (.pure 6) sReady).2).guileMode = false
    ∧ ((runBlock (.initE (.pure 6) fun r => .pure (encodeOpt r))
          { sReady with guileMode := true }).1 = .value 7
      ∧ (applyEvents { sReady with guileMode := true }
          (runBlock (.initE (.pure 6) fun r => .pure (encodeOpt r))
            { sReady with guileMode := true }).2).guileMode = true) :=
  ⟨rfl, rfl, (init_inside_block_window (.pure 6) sReady rfl rfl).1,
    (init_inside_block_window (.pure 6) sReady rfl rfl).2.2.2.1,
    (init_inside_block_window (.pure 6) sReady rfl rfl).2.2.2.2 6
      (interp (.pure 6) (applyEvents sReady (enterEvents sReady))).2 rfl⟩


/-- Phase of a thread's first `init` call in the two-thread first-use race:
`start` before the `INITIALIZED` check, `waiting` once it has decided to
acquire `INITIALIZATION_LOCK`, `boot` while holding the lock across the
`scm_with_guile` bootstrap, `fin` after releasing it. -/
inductive Ph
  | start
  | waiting
  | boot
  | fin
deriving DecidableEq

/-- One thread in the race: its phase and its thread-local `INITIALIZED`
flag. -/
structure Thr where
  ph : Ph
  booted : Bool
deriving DecidableEq

/-- Global state of the two-thread first-use race.  The mutex itself is
implicit: it is held exactly while a thread is in phase `boot`. -/
structure CState where
  t1 : Thr
  t2 : Thr
deriving DecidableEq

/-- Both threads about to make their first `init` call. -/
def cInit : CState :=
  { t1 := { ph := .start, booted := false }, t2 := { ph := .start, booted := false } }

/-- Interleaving steps of the race.  A thread moves to `waiting` after
reading its `INITIALIZED` flag as false, enters `boot` only when the other
thread does not hold the lock (the mutex contract of
`INITIALIZATION_LOCK.lock()`), and on finishing the bootstrap sets its
`INITIALIZED` flag and releases the lock. -/
inductive CStep : CState → CState → Prop
  | want1 {s : CState} : s.t1.ph = .start → s.t1.booted = false →
      CStep s { s with t1 := { s.t1 with ph := .waiting } }
  | lock1 {s : CState} : s.t1.ph = .waiting → s.t2.ph ≠ .boot →
      CStep s { s with t1 := { s.t1 with ph := .boot } }
  | fin1 {s : CState} : s.t1.ph = .boot →
      CStep s { s with t1 := { ph := .fin, booted := true } }
  | want2 {s : CState} : s.t2.ph = .start → s.t2.booted = false →
      CStep s { s with t2 := { s.t2 with ph := .waiting } }
  | lock2 {s : CState} : s.t2.ph = .waiting → s.t1.ph ≠ .boot →
      CStep s { s with t2 := { s.t2 with ph := .boot } }
  | fin2 {s : CState} : s.t2.ph = .boot →
      CStep s { s with t2 := { ph := .fin, booted := true } }

/-- States reachable from the initial two-thread race state. -/
inductive CReach : CState → Prop
  | base : CReach cInit
  | step {s s' : CState} : CReach s → CStep s s' → CReach s'

/-- Rank of a phase, decreasing along every step. -/
def phRank : Ph → Nat
  | .start => 3
  | .waiting => 2
  | .boot => 1
  | .fin => 0

/-- Termination measure of the race. -/
def cMeasure (s : CState) : Nat :=
  phRank s.t1.ph + phRank s.t2.ph

theorem creach_inv {s : CState} (h : CReach s) :
    ¬(s.t1.ph = .boot ∧ s.t2.ph = .boot)
    ∧ (s.t1.ph = .start → s.t1.booted = false)
    ∧ (s.t2.ph = .start → s.t2.booted = false)
    ∧ (s.t1.ph = .fin → s.t1.booted = true)
    ∧ (s.t2.ph = .fin → s.t2.booted = true) := by
  induction h with
  | base => simp [cInit]
  | step hr hs ih =>
      obtain ⟨hmx, hs1, hs2, hf1, hf2⟩ := ih
      cases hs with
      | want1 h1 h2 => exact ⟨by simp_all, by simp_all, hs2, by simp_all, hf2⟩
      | lock1 h1 h2 => exact ⟨by simp_all, by simp_all, hs2, by simp_all, hf2⟩
      | fin1 h1 => exact ⟨by simp_all, by simp_all, hs2, by simp_all, hf2⟩
      | want2 h1 h2 => exact ⟨by simp_all, hs1, by simp_all, hf1, by simp_all⟩
      | lock2 h1 h2 => exact ⟨by simp_all, hs1, by simp_all, hf1, by simp_all⟩
      | fin2 h1 => exact ⟨by simp_all, hs1, by simp_all, hf1, by simp_all⟩

theorem cstep_progress {s : CState} (h : CReach s)
    (hnf : ¬(s.t1.ph = .fin ∧ s.t2.ph = .fin)) : ∃ s', CStep s s' := by
  obtain ⟨-, hs1, hs2, -, -⟩ := creach_inv h
  cases h1 : s.t1.ph with
  | start => exact ⟨_, CStep.want1 h1 (hs1 h1)⟩
  | boot => exact ⟨_, CStep.fin1 h1⟩
  | waiting =>
      cases h2 : s.t2.ph with
      | boot => exact ⟨_, CStep.fin2 h2⟩
      | start => exact ⟨_, CStep.lock1 h1 (by simp [h2])⟩
      | waiting => exact ⟨_, CStep.lock1 h1 (by simp [h2])⟩
      | fin => exact ⟨_, CStep.lock1 h1 (by simp [h2])⟩
  | fin =>
      cases h2 : s.t2.ph with
      | start => exact ⟨_, CStep.want2 h2 (hs2 h2)⟩
      | waiting => exact ⟨_, CStep.lock2 h2 (by simp [h1])⟩
      | boot => exact ⟨_, CStep.fin2 h2⟩
      | fin => exact absurd ⟨h1, h2⟩ hnf

theorem cstep_measure {s s' : CState} (h : CStep s s') : cMeasure s' < cMeasure s := by
  cases h with
  | want1 h1 h2 => simp [cMeasure, phRank, h1]
  | lock1 h1 h2 => simp [cMeasure, phRank, h1]
  | fin1 h1 => simp [cMeasure, phRank, h1]
  | want2 h1 h2 => simp [cMeasure, phRank, h1]
  | lock2 h1 h2 => simp [cMeasure, phRank, h1]
  | fin2 h1 => simp [cMeasure, phRank, h1]

/-- C9: in the two-thread first-use race, at most one thread is ever inside
the bootstrap section (the mutex serializes first bootstraps); the race
cannot get stuck before both threads finish — every maximal execution ends
with both calls completed, and each step strictly decreases the measure so
every execution is finite; a finished thread has its `INITIALIZED` flag set;
and any later `init` call of a thread whose flag is set never touches the
process-wide lock again. -/
theorem first_use_bootstrap_isolation :
    (∀ s : CState, CReach s → ¬(s.t1.ph = .boot ∧ s.t2.ph = .boot))
    ∧ (∀ s : CState, CReach s → (¬∃ s', CStep s s') →
        s.t1.ph = .fin ∧ s.t2.ph = .fin)
    ∧ (∀ s s' : CState, CStep s s' → cMeasure s' < cMeasure s)
    ∧ (∀ s : CState, CReach s →
        (s.t1.ph = .fin → s.t1.booted = true) ∧ (s.t2.ph = .fin → s.t2.booted = true))
    ∧ (∀ (body : Prog) (s : TState), s.initialized = true →
        lockFree (runInit body s).2 = true) := by
  refine ⟨fun s h => (creach_inv h).1,
    fun s h hstuck => ?_,
    fun s s' h => cstep_measure h,
    fun s h => ⟨(creach_inv h).2.2.2.1, (creach_inv h).2.2.2.2⟩,
    fun body s hi => ?_⟩
  · by_contra hnf
    exact hstuck (cstep_progress h hnf)
  · by_cases hm : s.guileMode = true
    · rw [runInit_fast body s hm]
      exact lockFree_interp body s hi
    · rw [runInit_enter body s (Bool.not_eq_true _ ▸ hm)]
      simp only [lockFree_append, Bool.and_eq_true]
      exact ⟨⟨by rw [show enterEvents s =
            [Event.setInit, Event.setMode true .withGuileEnter] by
            simp [enterEvents, hi]]; rfl,
          lockFree_interp body _ (applyEvents_enterEvents_initialized s)⟩,
        by rw [show exitEvents s = [Event.setMode false .afterWithGuile] by
            simp [exitEvents, hi]]; rfl⟩

theorem first_use_bootstrap_isolation_witness :
    ¬(cInit.t1.ph = .boot ∧ cInit.t2.ph = .boot)
    ∧ lockFree (runInit (.pure 2) sReady).2 = true :=
  ⟨first_use_bootstrap_isolation.1 cInit CReach.base,
    first_use_bootstrap_isolation.2.2.2.2 (.pure 2) sReady rfl⟩


end GuileRs
